import Mathlib

/-!
Shallow embedding of the nitinol phase-visualization programs
(`visualize_nitinol.py` and `compare_nitinol_phases.py`).

Floating-point numbers are modelled as real numbers; numpy arrays of
3-D points as lists of triples; `ase.Atoms` as a list of
(chemical-symbol, Cartesian-position) pairs together with the three
cell vectors.
-/

namespace Nitinol

/-- Cartesian 3-D vector, modelling a numpy row of three floats. -/
abbrev Vec3 := ℝ × ℝ × ℝ

/-- Componentwise vector addition, modelling numpy `+` on 3-vectors. -/
def vadd (p q : Vec3) : Vec3 := (p.1 + q.1, p.2.1 + q.2.1, p.2.2 + q.2.2)

/-- Scalar multiplication of a 3-vector, modelling numpy scalar `*`. -/
def smul3 (s : ℝ) (p : Vec3) : Vec3 := (s * p.1, s * p.2.1, s * p.2.2)

/-- Euclidean norm of the difference of two points, modelling
`np.linalg.norm(positions[i] - positions[j])`. -/
noncomputable def dist3 (p q : Vec3) : ℝ :=
  Real.sqrt ((p.1 - q.1) ^ 2 + (p.2.1 - q.2.1) ^ 2 + (p.2.2 - q.2.2) ^ 2)

/-- Model of an `ase.Atoms` object: an ordered list of
(species tag, Cartesian position) pairs plus the three cell vectors. -/
structure Atoms where
  atoms : List (String × Vec3)
  cell : Vec3 × Vec3 × Vec3

/-- Model of `ase.Atoms.repeat((nx, ny, nz))` (the external ASE library's
tiling method, called at `visualize_nitinol.py:54` and
`compare_nitinol_phases.py:54,93`): for every replica index triple
(i, j, k), iterated with i outermost, each original atom is emitted at
`position + i*cell0 + j*cell1 + k*cell2` with its species tag unchanged,
and the resulting cell has each vector scaled by its repeat count. -/
def repeatAtoms (u : Atoms) (nx ny nz : ℕ) : Atoms where
  atoms := (List.range nx).flatMap fun i =>
    (List.range ny).flatMap fun j =>
      (List.range nz).flatMap fun k =>
        u.atoms.map fun a =>
          (a.1, vadd a.2 (vadd (smul3 (i : ℝ) u.cell.1)
            (vadd (smul3 (j : ℝ) u.cell.2.1) (smul3 (k : ℝ) u.cell.2.2))))
  cell := (smul3 (nx : ℝ) u.cell.1, smul3 (ny : ℝ) u.cell.2.1,
    smul3 (nz : ℝ) u.cell.2.2)

/-- Bond computation of `plot_structure` (`compare_nitinol_phases.py:108-118`):
for every `i` and every `j` in `range(i+1, n)`, the pair (i, j) is a bond
iff the Euclidean distance of the two positions is strictly below the
threshold (`SHARED_PARAMS['bond_distance']`). -/
noncomputable def bondGraph (ps : List Vec3) (t : ℝ) : List (ℕ × ℕ) :=
  (List.range ps.length).flatMap fun i =>
    ((List.range' (i + 1) (ps.length - (i + 1))).filter fun j =>
      decide (dist3 (ps.getD i ((0 : ℝ), (0 : ℝ), (0 : ℝ)))
        (ps.getD j ((0 : ℝ), (0 : ℝ), (0 : ℝ))) < t)).map fun j => (i, j)

/-- Cylindrical carve of `create_nitinol_wire` (`visualize_nitinol.py:61-67`):
keep exactly the atoms whose in-plane (x, y) distance from the center
`(cx, cy)` is at most `R` (`mask = distances <= radius; wire = wire[mask]`),
leaving order and cell unchanged. -/
noncomputable def cylFilter (s : Atoms) (cx cy R : ℝ) : Atoms where
  atoms := s.atoms.filter fun a =>
    decide (Real.sqrt ((a.2.1 - cx) ^ 2 + (a.2.2.1 - cy) ^ 2) ≤ R)
  cell := s.cell

/-- Python `int(x)` truncation toward zero applied to a float. -/
noncomputable def pyInt (x : ℝ) : ℤ := if 0 ≤ x then ⌊x⌋ else -⌊-x⌋

/-- B2 austenite unit cell (CsCl type) built identically at
`visualize_nitinol.py:31-47` and `compare_nitinol_phases.py:37-51`:
cubic cell of parameter 3.015 Å with Ti at the corner and Ni at the
body center. -/
noncomputable def b2UnitCell : Atoms where
  atoms := [("Ti", ((0 : ℝ), (0 : ℝ), (0 : ℝ))),
            ("Ni", ((3.015 : ℝ) / 2, (3.015 : ℝ) / 2, (3.015 : ℝ) / 2))]
  cell := (((3.015 : ℝ), 0, 0), ((0 : ℝ), 3.015, 0), ((0 : ℝ), 0, 3.015))

/-- Model of `create_b2_austenite` (`compare_nitinol_phases.py:32-56`):
the B2 unit cell repeated by `SHARED_PARAMS['repetitions_b2'] = (2, 2, 4)`. -/
noncomputable def create_b2_austenite : Atoms := repeatAtoms b2UnitCell 2 2 4

/-- B19' martensite unit cell built at `compare_nitinol_phases.py:66-90`:
monoclinic cell with a=2.89, b=4.12, c=4.62, β=96.8° and four atoms at the
approximate positions used by the source. -/
noncomputable def b19UnitCell : Atoms where
  atoms := [("Ti", ((0 : ℝ), (0 : ℝ), (0 : ℝ))),
            ("Ni", ((2.89 : ℝ) / 2, (4.12 : ℝ) / 2, (4.62 : ℝ) / 2)),
            ("Ti", ((2.89 : ℝ) / 2, (0 : ℝ), (4.62 : ℝ) / 2)),
            ("Ni", ((0 : ℝ), (4.12 : ℝ) / 2, (0 : ℝ)))]
  cell := (((2.89 : ℝ), 0, 0), ((0 : ℝ), 4.12, 0),
    ((4.62 : ℝ) * Real.cos (96.8 * Real.pi / 180), 0,
     (4.62 : ℝ) * Real.sin (96.8 * Real.pi / 180)))

/-- Model of `create_b19_martensite` (`compare_nitinol_phases.py:58-95`):
the B19' unit cell repeated by `SHARED_PARAMS['repetitions_b19'] = (2, 2, 2)`. -/
noncomputable def create_b19_martensite : Atoms := repeatAtoms b19UnitCell 2 2 2

/-- Model of `create_nitinol_wire` (`visualize_nitinol.py:12-69`): build the
B2 cell, repeat it by `int(diameter/a)` in x and y and `int(length/a)` in z
(`np.tile` treats a negative repeat as zero, hence `Int.toNat`), then keep
the atoms within in-plane radius `diameter/2` of the cell's xy midpoint. -/
noncomputable def create_nitinol_wire (length diameter : ℝ) : Atoms :=
  let a : ℝ := 3.015
  let nx : ℕ := (pyInt (diameter / a)).toNat
  let ny : ℕ := (pyInt (diameter / a)).toNat
  let nz : ℕ := (pyInt (length / a)).toNat
  let wire := repeatAtoms b2UnitCell nx ny nz
  let center_x := wire.cell.1.1 / 2
  let center_y := wire.cell.2.1.2.1 / 2
  let radius := diameter / 2
  cylFilter wire center_x center_y radius

/-- View-framing step of `plot_structure` (`compare_nitinol_phases.py:167-178`):
per-axis min/max over all atom positions give the midpoint center and half
of the largest span; numpy's `max()`/`min()` raise on an empty array, which
is modelled by returning `none` for an empty atom list. -/
noncomputable def viewFrame (s : Atoms) : Option (Vec3 × ℝ) :=
  match s.atoms with
  | [] => none
  | a0 :: rest =>
    let xmax := (rest.map fun a => a.2.1).foldl max a0.2.1
    let xmin := (rest.map fun a => a.2.1).foldl min a0.2.1
    let ymax := (rest.map fun a => a.2.2.1).foldl max a0.2.2.1
    let ymin := (rest.map fun a => a.2.2.1).foldl min a0.2.2.1
    let zmax := (rest.map fun a => a.2.2.2).foldl max a0.2.2.2
    let zmin := (rest.map fun a => a.2.2.2).foldl min a0.2.2.2
    let maxRange := max (max (xmax - xmin) (ymax - ymin)) (zmax - zmin) / 2
    some (((xmax + xmin) * 0.5, (ymax + ymin) * 0.5, (zmax + zmin) * 0.5),
      maxRange)

/-- Cell-edge enumeration of `plot_structure`
(`compare_nitinol_phases.py:140-154`), in source order. -/
def cellEdges (cv : Vec3 × Vec3 × Vec3) : List (Vec3 × Vec3) :=
  [(((0 : ℝ), (0 : ℝ), (0 : ℝ)), cv.1),
   (((0 : ℝ), (0 : ℝ), (0 : ℝ)), cv.2.1),
   (((0 : ℝ), (0 : ℝ), (0 : ℝ)), cv.2.2),
   (cv.1, vadd cv.1 cv.2.1),
   (cv.1, vadd cv.1 cv.2.2),
   (cv.2.1, vadd cv.2.1 cv.1),
   (cv.2.1, vadd cv.2.1 cv.2.2),
   (cv.2.2, vadd cv.2.2 cv.1),
   (cv.2.2, vadd cv.2.2 cv.2.1),
   (vadd cv.1 cv.2.1, vadd (vadd cv.1 cv.2.1) cv.2.2),
   (vadd cv.1 cv.2.2, vadd (vadd cv.1 cv.2.2) cv.2.1),
   (vadd cv.2.1 cv.2.2, vadd (vadd cv.2.1 cv.2.2) cv.1)]

/-- Corner of the cell parallelepiped selected by a Boolean coefficient
triple: each `true` coordinate adds the corresponding cell vector. -/
def corner (cv : Vec3 × Vec3 × Vec3) (e : Bool × Bool × Bool) : Vec3 :=
  vadd (vadd (if e.1 then cv.1 else ((0 : ℝ), (0 : ℝ), (0 : ℝ)))
      (if e.2.1 then cv.2.1 else ((0 : ℝ), (0 : ℝ), (0 : ℝ))))
    (if e.2.2 then cv.2.2 else ((0 : ℝ), (0 : ℝ), (0 : ℝ)))

/-- The 12 cell edges of `plot_structure`, written as pairs of corner
coefficient triples, in the same order as `cellEdges`. -/
def boxEdgeSpec : List ((Bool × Bool × Bool) × (Bool × Bool × Bool)) :=
  [((false, false, false), (true, false, false)),
   ((false, false, false), (false, true, false)),
   ((false, false, false), (false, false, true)),
   ((true, false, false), (true, true, false)),
   ((true, false, false), (true, false, true)),
   ((false, true, false), (true, true, false)),
   ((false, true, false), (false, true, true)),
   ((false, false, true), (true, false, true)),
   ((false, false, true), (false, true, true)),
   ((true, true, false), (true, true, true)),
   ((true, false, true), (true, true, true)),
   ((false, true, true), (true, true, true))]

/-- Number of coordinates in which two corner coefficient triples differ. -/
def diffCount (u v : Bool × Bool × Bool) : ℕ :=
  (if u.1 = v.1 then 0 else 1) + (if u.2.1 = v.2.1 then 0 else 1) +
    (if u.2.2 = v.2.2 then 0 else 1)


/-! ### Helper lemmas about flatMap over `List.range` -/

lemma blockLt (q r n m : ℕ) (hq : q < n) (hr : r < m) : q * m + r < n * m :=
  calc q * m + r < q * m + m := by omega
    _ = (q + 1) * m := by ring
    _ ≤ n * m := Nat.mul_le_mul_right m (by omega)

lemma length_flatMap_range {α : Type} (f : ℕ → List α) (n m : ℕ)
    (h : ∀ i, (f i).length = m) :
    ((List.range n).flatMap f).length = n * m := by
  induction n with
  | zero => simp
  | succ n ih =>
    rw [List.range_succ, List.flatMap_append]
    simp [ih, h n, Nat.succ_mul]

lemma getElem?_flatMap_range {α : Type} (f : ℕ → List α) (m : ℕ)
    (h : ∀ i, (f i).length = m) (n q r : ℕ) (hq : q < n) (hr : r < m) :
    ((List.range n).flatMap f)[q * m + r]? = (f q)[r]? := by
  induction n with
  | zero => exact absurd hq (Nat.not_lt_zero q)
  | succ n ih =>
    rw [List.range_succ, List.flatMap_append]
    have hl : ((List.range n).flatMap f).length = n * m :=
      length_flatMap_range f n m h
    rcases Nat.lt_or_ge q n with h1 | h1
    · rw [List.getElem?_append_left (by rw [hl]; exact blockLt q r n m h1 hr)]
      exact ih h1
    · have hqn : q = n := by omega
      subst hqn
      rw [List.getElem?_append_right (by rw [hl]; omega), hl]
      simp [show q * m + r - q * m = r by omega]

lemma length_flatMap_triple {α β : Type} (A : List α) (F : ℕ → ℕ → ℕ → α → β)
    (nx ny nz : ℕ) :
    ((List.range nx).flatMap fun i => (List.range ny).flatMap fun j =>
      (List.range nz).flatMap fun k => A.map (F i j k)).length
      = A.length * (nx * ny * nz) := by
  have h3 : ∀ i j k : ℕ, (A.map (F i j k)).length = A.length := by simp
  have h2 : ∀ i j : ℕ, ((List.range nz).flatMap fun k =>
      A.map (F i j k)).length = nz * A.length :=
    fun i j => length_flatMap_range _ nz A.length (h3 i j)
  have h1 : ∀ i : ℕ, ((List.range ny).flatMap fun j =>
      (List.range nz).flatMap fun k => A.map (F i j k)).length
      = ny * (nz * A.length) :=
    fun i => length_flatMap_range _ ny (nz * A.length) (h2 i)
  rw [length_flatMap_range _ nx (ny * (nz * A.length)) h1]
  ring

lemma getElem?_flatMap_triple {α β : Type} (A : List α) (F : ℕ → ℕ → ℕ → α → β)
    (nx ny nz i j k t : ℕ) (hi : i < nx) (hj : j < ny) (hk : k < nz)
    (ht : t < A.length) :
    ((List.range nx).flatMap fun i' => (List.range ny).flatMap fun j' =>
      (List.range nz).flatMap fun k' =>
        A.map (F i' j' k'))[((i * ny + j) * nz + k) * A.length + t]?
      = A[t]?.map (F i j k) := by
  have h3 : ∀ i' j' k' : ℕ, (A.map (F i' j' k')).length = A.length := by simp
  have h2 : ∀ i' j' : ℕ, ((List.range nz).flatMap fun k' =>
      A.map (F i' j' k')).length = nz * A.length :=
    fun i' j' => length_flatMap_range _ nz A.length (h3 i' j')
  have h1 : ∀ i' : ℕ, ((List.range ny).flatMap fun j' =>
      (List.range nz).flatMap fun k' => A.map (F i' j' k')).length
      = ny * (nz * A.length) :=
    fun i' => length_flatMap_range _ ny (nz * A.length) (h2 i')
  have hidx : ((i * ny + j) * nz + k) * A.length + t
      = i * (ny * (nz * A.length)) + (j * (nz * A.length)
        + (k * A.length + t)) := by ring
  rw [hidx,
    getElem?_flatMap_range _ (ny * (nz * A.length)) h1 nx i _ hi
      (blockLt j (k * A.length + t) ny (nz * A.length) hj
        (blockLt k t nz A.length hk ht)),
    getElem?_flatMap_range _ (nz * A.length) (h2 i) ny j _ hj
      (blockLt k t nz A.length hk ht),
    getElem?_flatMap_range _ A.length (h3 i j) nz k t hk ht,
    List.getElem?_map]

/-- C1: for every unit cell with `m` atoms and repeat counts (nx, ny, nz),
the replicated AtomSet contains exactly `m*nx*ny*nz` atoms, and for every
replica triple (i, j, k) with i < nx, j < ny, k < nz and every original
atom index t, the output atom at flat index ((i*ny + j)*nz + k)*m + t is
exactly the t-th original atom translated by i*a_vec + j*b_vec + k*c_vec
with the same species tag. -/
theorem replicate_tiling (u : Atoms) (nx ny nz i j k t : ℕ)
    (hi : i < nx) (hj : j < ny) (hk : k < nz) (ht : t < u.atoms.length) :
    (repeatAtoms u nx ny nz).atoms.length = u.atoms.length * (nx * ny * nz) ∧
    (repeatAtoms u nx ny nz).atoms[((i * ny + j) * nz + k)
        * u.atoms.length + t]?
      = u.atoms[t]?.map (fun a =>
          (a.1, vadd a.2 (vadd (smul3 (i : ℝ) u.cell.1)
            (vadd (smul3 (j : ℝ) u.cell.2.1) (smul3 (k : ℝ) u.cell.2.2))))) :=
  ⟨length_flatMap_triple u.atoms
      (fun i' j' k' a => (a.1, vadd a.2 (vadd (smul3 (i' : ℝ) u.cell.1)
        (vadd (smul3 (j' : ℝ) u.cell.2.1) (smul3 (k' : ℝ) u.cell.2.2)))))
      nx ny nz,
   getElem?_flatMap_triple u.atoms
      (fun i' j' k' a => (a.1, vadd a.2 (vadd (smul3 (i' : ℝ) u.cell.1)
        (vadd (smul3 (j' : ℝ) u.cell.2.1) (smul3 (k' : ℝ) u.cell.2.2)))))
      nx ny nz i j k t hi hj hk ht⟩

/-- Witness for C1: the B2 unit cell repeated (2, 2, 2), replica (1, 0, 1),
original atom index 1. -/
theorem replicate_tiling_witness :
    (1 < 2 ∧ 0 < 2 ∧ 1 < 2 ∧ 1 < b2UnitCell.atoms.length) ∧
    ((repeatAtoms b2UnitCell 2 2 2).atoms.length
        = b2UnitCell.atoms.length * (2 * 2 * 2) ∧
     (repeatAtoms b2UnitCell 2 2 2).atoms[((1 * 2 + 0) * 2 + 1)
         * b2UnitCell.atoms.length + 1]?
       = b2UnitCell.atoms[1]?.map (fun a =>
           (a.1, vadd a.2 (vadd (smul3 ((1 : ℕ) : ℝ) b2UnitCell.cell.1)
             (vadd (smul3 ((0 : ℕ) : ℝ) b2UnitCell.cell.2.1)
               (smul3 ((1 : ℕ) : ℝ) b2UnitCell.cell.2.2)))))) :=
  ⟨⟨by omega, by omega, by omega, by simp [b2UnitCell]⟩,
   replicate_tiling b2UnitCell 2 2 2 1 0 1 1 (by omega) (by omega) (by omega)
     (by simp [b2UnitCell])⟩

/-! ### Bond graph (C2) -/

lemma dist3_symm (p q : Vec3) : dist3 p q = dist3 q p := by
  unfold dist3
  congr 1
  ring

lemma mem_bondGraph (ps : List Vec3) (t : ℝ) (i j : ℕ) :
    (i, j) ∈ bondGraph ps t ↔ i < j ∧ j < ps.length ∧
      dist3 (ps.getD i ((0 : ℝ), (0 : ℝ), (0 : ℝ)))
        (ps.getD j ((0 : ℝ), (0 : ℝ), (0 : ℝ))) < t := by
  unfold bondGraph
  constructor
  · intro h
    obtain ⟨i', hi', hmem⟩ := List.mem_flatMap.mp h
    obtain ⟨j', hj', hpair⟩ := List.mem_map.mp hmem
    obtain ⟨hjr, hd⟩ := List.mem_filter.mp hj'
    obtain ⟨hj1, hj2⟩ := List.mem_range'_1.mp hjr
    rw [List.mem_range] at hi'
    rw [Prod.mk.injEq] at hpair
    obtain ⟨rfl, rfl⟩ := hpair
    exact ⟨by omega, by omega, of_decide_eq_true hd⟩
  · rintro ⟨hij, hjn, hd⟩
    refine List.mem_flatMap.mpr ⟨i, List.mem_range.mpr (by omega), ?_⟩
    refine List.mem_map.mpr ⟨j, ?_, rfl⟩
    exact List.mem_filter.mpr ⟨List.mem_range'_1.mpr ⟨by omega, by omega⟩,
      decide_eq_true hd⟩

/-- C2: a pair (i, j) is in the bond list iff i < j, j is a valid index and
the Euclidean distance of the two positions is strictly below the threshold;
as unordered pairs, two distinct valid indices are bonded iff their distance
is below the threshold; there are no self-edges; a pair exactly at the
threshold distance is not bonded; and the edge list has no duplicates. -/
theorem bond_graph_spec (ps : List Vec3) (t : ℝ) (ht : 0 < t) :
    (∀ i j : ℕ, (i, j) ∈ bondGraph ps t ↔ i < j ∧ j < ps.length ∧
        dist3 (ps.getD i ((0 : ℝ), (0 : ℝ), (0 : ℝ)))
          (ps.getD j ((0 : ℝ), (0 : ℝ), (0 : ℝ))) < t) ∧
    (∀ i j : ℕ, i ≠ j → i < ps.length → j < ps.length →
        (((i, j) ∈ bondGraph ps t ∨ (j, i) ∈ bondGraph ps t) ↔
          dist3 (ps.getD i ((0 : ℝ), (0 : ℝ), (0 : ℝ)))
            (ps.getD j ((0 : ℝ), (0 : ℝ), (0 : ℝ))) < t)) ∧
    (∀ i : ℕ, (i, i) ∉ bondGraph ps t) ∧
    (∀ i j : ℕ, dist3 (ps.getD i ((0 : ℝ), (0 : ℝ), (0 : ℝ)))
        (ps.getD j ((0 : ℝ), (0 : ℝ), (0 : ℝ))) = t →
        (i, j) ∉ bondGraph ps t) ∧
    (bondGraph ps t).Nodup := by
  refine ⟨mem_bondGraph ps t, ?_, ?_, ?_, ?_⟩
  · intro i j hne hi hj
    constructor
    · rintro (h | h)
      · exact ((mem_bondGraph ps t i j).mp h).2.2
      · rw [dist3_symm]
        exact ((mem_bondGraph ps t j i).mp h).2.2
    · intro hd
      rcases Nat.lt_or_ge i j with h | h
      · exact Or.inl ((mem_bondGraph ps t i j).mpr ⟨h, hj, hd⟩)
      · have hji : j < i := by omega
        exact Or.inr ((mem_bondGraph ps t j i).mpr
          ⟨hji, hi, by rw [dist3_symm]; exact hd⟩)
  · intro i h
    have := ((mem_bondGraph ps t i i).mp h).1
    omega
  · intro i j hd h
    have hlt := ((mem_bondGraph ps t i j).mp h).2.2
    rw [hd] at hlt
    exact lt_irrefl t hlt
  · unfold bondGraph
    rw [List.nodup_flatMap]
    constructor
    · intro i _
      refine List.Nodup.map ?_ (List.Nodup.filter _ (List.nodup_range' _ _))
      intro a b hab
      exact ((Prod.mk.injEq _ _ _ _).mp hab).2
    · refine List.Pairwise.imp ?_ (List.pairwise_lt_range _)
      intro a b hab x hxa hxb
      obtain ⟨j1, _, hx1⟩ := List.mem_map.mp hxa
      obtain ⟨j2, _, hx2⟩ := List.mem_map.mp hxb
      have hxx := hx1.trans hx2.symm
      have : a = b := ((Prod.mk.injEq _ _ _ _).mp hxx).1
      omega

/-- Single-point atom list used by concrete witnesses. -/
def onePoint : List Vec3 := [((0 : ℝ), (0 : ℝ), (0 : ℝ))]

/-- Witness for C2 at the shared bond threshold 3.2. -/
theorem bond_graph_spec_witness :
    (0 : ℝ) < 3.2 ∧
    ((∀ i j : ℕ, (i, j) ∈ bondGraph onePoint 3.2 ↔ i < j ∧
          j < onePoint.length ∧
          dist3 (onePoint.getD i ((0 : ℝ), (0 : ℝ), (0 : ℝ)))
            (onePoint.getD j ((0 : ℝ), (0 : ℝ), (0 : ℝ))) < 3.2) ∧
     (∀ i j : ℕ, i ≠ j → i < onePoint.length → j < onePoint.length →
          (((i, j) ∈ bondGraph onePoint 3.2 ∨ (j, i) ∈ bondGraph onePoint 3.2) ↔
            dist3 (onePoint.getD i ((0 : ℝ), (0 : ℝ), (0 : ℝ)))
              (onePoint.getD j ((0 : ℝ), (0 : ℝ), (0 : ℝ))) < 3.2)) ∧
     (∀ i : ℕ, (i, i) ∉ bondGraph onePoint 3.2) ∧
     (∀ i j : ℕ, dist3 (onePoint.getD i ((0 : ℝ), (0 : ℝ), (0 : ℝ)))
          (onePoint.getD j ((0 : ℝ), (0 : ℝ), (0 : ℝ))) = 3.2 →
          (i, j) ∉ bondGraph onePoint 3.2) ∧
     (bondGraph onePoint 3.2).Nodup) :=
  ⟨by norm_num, bond_graph_spec onePoint 3.2 (by norm_num)⟩

/-! ### Cylindrical region filter (C3) -/

/-- C3: the cylindrical filter keeps exactly the atoms whose in-plane
distance from the center is at most R (inclusive), the kept atoms form a
stable subsequence of the input, and the cell vectors are unchanged. -/
theorem cyl_filter_spec (s : Atoms) (cx cy R : ℝ) (hR : 0 ≤ R) :
    (∀ a : String × Vec3, a ∈ (cylFilter s cx cy R).atoms ↔
      a ∈ s.atoms ∧ Real.sqrt ((a.2.1 - cx) ^ 2 + (a.2.2.1 - cy) ^ 2) ≤ R) ∧
    (cylFilter s cx cy R).atoms.Sublist s.atoms ∧
    (cylFilter s cx cy R).cell = s.cell := by
  refine ⟨?_, List.filter_sublist _, rfl⟩
  intro a
  simp [cylFilter, List.mem_filter]

/-- Single-atom structure used by concrete witnesses. -/
def oneAtom : Atoms where
  atoms := [("Ti", ((0 : ℝ), (0 : ℝ), (0 : ℝ)))]
  cell := (((1 : ℝ), 0, 0), ((0 : ℝ), 1, 0), ((0 : ℝ), 0, 1))

/-- Witness for C3 at radius 1 and center (0, 0). -/
theorem cyl_filter_spec_witness :
    (0 : ℝ) ≤ 1 ∧
    ((∀ a : String × Vec3, a ∈ (cylFilter oneAtom 0 0 1).atoms ↔
        a ∈ oneAtom.atoms ∧
          Real.sqrt ((a.2.1 - 0) ^ 2 + (a.2.2.1 - 0) ^ 2) ≤ 1) ∧
     (cylFilter oneAtom 0 0 1).atoms.Sublist oneAtom.atoms ∧
     (cylFilter oneAtom 0 0 1).cell = oneAtom.cell) :=
  ⟨by norm_num, cyl_filter_spec oneAtom 0 0 1 (by norm_num)⟩

/-! ### View frame (C6) -/

lemma init_le_foldl_max {A : Type} [LinearOrder A] :
    ∀ (l : List A) (a : A), a ≤ l.foldl max a := by
  intro l
  induction l with
  | nil => intro a; exact le_refl a
  | cons h t ih => intro a; exact le_trans (le_max_left a h) (ih (max a h))

lemma mem_le_foldl_max {A : Type} [LinearOrder A] :
    ∀ (l : List A) (a x : A), x ∈ l → x ≤ l.foldl max a := by
  intro l
  induction l with
  | nil => intro a x hx; cases hx
  | cons h t ih =>
    intro a x hx
    rcases List.mem_cons.mp hx with rfl | hx
    · exact le_trans (le_max_right a x) (init_le_foldl_max t (max a x))
    · exact ih (max a h) x hx

lemma foldl_max_choice {A : Type} [LinearOrder A] :
    ∀ (l : List A) (a : A), l.foldl max a = a ∨ l.foldl max a ∈ l := by
  intro l
  induction l with
  | nil => intro a; exact Or.inl rfl
  | cons h t ih =>
    intro a
    rcases ih (max a h) with heq | hmem
    · rcases max_choice a h with h1 | h1
      · exact Or.inl (by rw [List.foldl_cons, heq, h1])
      · refine Or.inr ?_
        rw [List.foldl_cons, heq, h1]
        exact List.mem_cons_self h t
    · exact Or.inr (List.mem_cons_of_mem h hmem)

lemma foldl_min_le_init {A : Type} [LinearOrder A] :
    ∀ (l : List A) (a : A), l.foldl min a ≤ a := by
  intro l
  induction l with
  | nil => intro a; exact le_refl a
  | cons h t ih => intro a; exact le_trans (ih (min a h)) (min_le_left a h)

lemma foldl_min_le_mem {A : Type} [LinearOrder A] :
    ∀ (l : List A) (a x : A), x ∈ l → l.foldl min a ≤ x := by
  intro l
  induction l with
  | nil => intro a x hx; cases hx
  | cons h t ih =>
    intro a x hx
    rcases List.mem_cons.mp hx with rfl | hx
    · exact le_trans (foldl_min_le_init t (min a x)) (min_le_right a x)
    · exact ih (min a h) x hx

lemma foldl_min_choice {A : Type} [LinearOrder A] :
    ∀ (l : List A) (a : A), l.foldl min a = a ∨ l.foldl min a ∈ l := by
  intro l
  induction l with
  | nil => intro a; exact Or.inl rfl
  | cons h t ih =>
    intro a
    rcases ih (min a h) with heq | hmem
    · rcases min_choice a h with h1 | h1
      · exact Or.inl (by rw [List.foldl_cons, heq, h1])
      · refine Or.inr ?_
        rw [List.foldl_cons, heq, h1]
        exact List.mem_cons_self h t
    · exact Or.inr (List.mem_cons_of_mem h hmem)

/-- C6: for a non-empty AtomSet the view frame's center is the per-axis
midpoint of the coordinate minima and maxima, its half extent is half of
the largest axis span, the cube center ± half-extent encloses every atom
on every axis, and the cube is tight (span equals twice the half extent,
with both bounds attained by atoms) on the axis with the largest span. -/
theorem view_frame_bbox (s : Atoms) (c : Vec3) (he : ℝ)
    (h : viewFrame s = some (c, he)) :
    ∃ xlo xhi ylo yhi zlo zhi : ℝ,
      (∀ a ∈ s.atoms, xlo ≤ a.2.1 ∧ a.2.1 ≤ xhi ∧ ylo ≤ a.2.2.1 ∧
        a.2.2.1 ≤ yhi ∧ zlo ≤ a.2.2.2 ∧ a.2.2.2 ≤ zhi) ∧
      ((∃ a ∈ s.atoms, a.2.1 = xlo) ∧ (∃ a ∈ s.atoms, a.2.1 = xhi) ∧
       (∃ a ∈ s.atoms, a.2.2.1 = ylo) ∧ (∃ a ∈ s.atoms, a.2.2.1 = yhi) ∧
       (∃ a ∈ s.atoms, a.2.2.2 = zlo) ∧ (∃ a ∈ s.atoms, a.2.2.2 = zhi)) ∧
      c = ((xhi + xlo) * 0.5, (yhi + ylo) * 0.5, (zhi + zlo) * 0.5) ∧
      he = max (max (xhi - xlo) (yhi - ylo)) (zhi - zlo) / 2 ∧
      (xhi - xlo = 2 * he ∨ yhi - ylo = 2 * he ∨ zhi - zlo = 2 * he) ∧
      (∀ a ∈ s.atoms, c.1 - he ≤ a.2.1 ∧ a.2.1 ≤ c.1 + he ∧
        c.2.1 - he ≤ a.2.2.1 ∧ a.2.2.1 ≤ c.2.1 + he ∧
        c.2.2 - he ≤ a.2.2.2 ∧ a.2.2.2 ≤ c.2.2 + he) := by
  obtain ⟨atoms, cell⟩ := s
  cases atoms with
  | nil => simp [viewFrame] at h
  | cons a0 rest =>
    simp only [viewFrame, Option.some.injEq, Prod.mk.injEq] at h
    obtain ⟨hc, hhe⟩ := h
    set xhi := (rest.map fun x => x.2.1).foldl max a0.2.1 with hd1
    set xlo := (rest.map fun x => x.2.1).foldl min a0.2.1 with hd2
    set yhi := (rest.map fun x => x.2.2.1).foldl max a0.2.2.1 with hd3
    set ylo := (rest.map fun x => x.2.2.1).foldl min a0.2.2.1 with hd4
    set zhi := (rest.map fun x => x.2.2.2).foldl max a0.2.2.2 with hd5
    set zlo := (rest.map fun x => x.2.2.2).foldl min a0.2.2.2 with hd6
    have hbound : ∀ a ∈ a0 :: rest, xlo ≤ a.2.1 ∧ a.2.1 ≤ xhi ∧
        ylo ≤ a.2.2.1 ∧ a.2.2.1 ≤ yhi ∧ zlo ≤ a.2.2.2 ∧ a.2.2.2 ≤ zhi := by
      intro a ha
      rcases List.mem_cons.mp ha with rfl | ha
      · exact ⟨foldl_min_le_init _ _, init_le_foldl_max _ _,
          foldl_min_le_init _ _, init_le_foldl_max _ _,
          foldl_min_le_init _ _, init_le_foldl_max _ _⟩
      · exact ⟨foldl_min_le_mem _ _ _ (List.mem_map_of_mem _ ha),
          mem_le_foldl_max _ _ _ (List.mem_map_of_mem _ ha),
          foldl_min_le_mem _ _ _ (List.mem_map_of_mem _ ha),
          mem_le_foldl_max _ _ _ (List.mem_map_of_mem _ ha),
          foldl_min_le_mem _ _ _ (List.mem_map_of_mem _ ha),
          mem_le_foldl_max _ _ _ (List.mem_map_of_mem _ ha)⟩
    have hxs : xhi - xlo ≤ 2 * he := by
      rw [← hhe]
      have h1 : xhi - xlo ≤ max (xhi - xlo) (yhi - ylo) :=
        le_max_left _ _
      have h2 : max (xhi - xlo) (yhi - ylo)
          ≤ max (max (xhi - xlo) (yhi - ylo)) (zhi - zlo) := le_max_left _ _
      linarith
    have hys : yhi - ylo ≤ 2 * he := by
      rw [← hhe]
      have h1 : yhi - ylo ≤ max (xhi - xlo) (yhi - ylo) :=
        le_max_right _ _
      have h2 : max (xhi - xlo) (yhi - ylo)
          ≤ max (max (xhi - xlo) (yhi - ylo)) (zhi - zlo) := le_max_left _ _
      linarith
    have hzs : zhi - zlo ≤ 2 * he := by
      rw [← hhe]
      have h1 : zhi - zlo
          ≤ max (max (xhi - xlo) (yhi - ylo)) (zhi - zlo) := le_max_right _ _
      linarith
    refine ⟨xlo, xhi, ylo, yhi, zlo, zhi, hbound, ?_, hc.symm, hhe.symm,
      ?_, ?_⟩
    · refine ⟨?_, ?_, ?_, ?_, ?_, ?_⟩
      · rcases foldl_min_choice (rest.map fun x => x.2.1) a0.2.1 with heq | hmem
        · exact ⟨a0, List.mem_cons_self a0 rest, (hd2.trans heq).symm⟩
        · obtain ⟨b, hb, hbe⟩ := List.mem_map.mp (hd2 ▸ hmem)
          exact ⟨b, List.mem_cons_of_mem a0 hb, hbe⟩
      · rcases foldl_max_choice (rest.map fun x => x.2.1) a0.2.1 with heq | hmem
        · exact ⟨a0, List.mem_cons_self a0 rest, (hd1.trans heq).symm⟩
        · obtain ⟨b, hb, hbe⟩ := List.mem_map.mp (hd1 ▸ hmem)
          exact ⟨b, List.mem_cons_of_mem a0 hb, hbe⟩
      · rcases foldl_min_choice (rest.map fun x => x.2.2.1) a0.2.2.1 with heq | hmem
        · exact ⟨a0, List.mem_cons_self a0 rest, (hd4.trans heq).symm⟩
        · obtain ⟨b, hb, hbe⟩ := List.mem_map.mp (hd4 ▸ hmem)
          exact ⟨b, List.mem_cons_of_mem a0 hb, hbe⟩
      · rcases foldl_max_choice (rest.map fun x => x.2.2.1) a0.2.2.1 with heq | hmem
        · exact ⟨a0, List.mem_cons_self a0 rest, (hd3.trans heq).symm⟩
        · obtain ⟨b, hb, hbe⟩ := List.mem_map.mp (hd3 ▸ hmem)
          exact ⟨b, List.mem_cons_of_mem a0 hb, hbe⟩
      · rcases foldl_min_choice (rest.map fun x => x.2.2.2) a0.2.2.2 with heq | hmem
        · exact ⟨a0, List.mem_cons_self a0 rest, (hd6.trans heq).symm⟩
        · obtain ⟨b, hb, hbe⟩ := List.mem_map.mp (hd6 ▸ hmem)
          exact ⟨b, List.mem_cons_of_mem a0 hb, hbe⟩
      · rcases foldl_max_choice (rest.map fun x => x.2.2.2) a0.2.2.2 with heq | hmem
        · exact ⟨a0, List.mem_cons_self a0 rest, (hd5.trans heq).symm⟩
        · obtain ⟨b, hb, hbe⟩ := List.mem_map.mp (hd5 ▸ hmem)
          exact ⟨b, List.mem_cons_of_mem a0 hb, hbe⟩
    · rcases max_choice (max (xhi - xlo) (yhi - ylo)) (zhi - zlo) with h1 | h1
      · rcases max_choice (xhi - xlo) (yhi - ylo) with h2 | h2
        · refine Or.inl ?_
          rw [← hhe, h1, h2]
          ring
        · refine Or.inr (Or.inl ?_)
          rw [← hhe, h1, h2]
          ring
      · refine Or.inr (Or.inr ?_)
        rw [← hhe, h1]
        ring
    · intro a ha
      obtain ⟨hb1, hb2, hb3, hb4, hb5, hb6⟩ := hbound a ha
      rw [← hc]
      refine ⟨?_, ?_, ?_, ?_, ?_, ?_⟩
      · show (xhi + xlo) * 0.5 - he ≤ a.2.1
        norm_num
        linarith
      · show a.2.1 ≤ (xhi + xlo) * 0.5 + he
        norm_num
        linarith
      · show (yhi + ylo) * 0.5 - he ≤ a.2.2.1
        norm_num
        linarith
      · show a.2.2.1 ≤ (yhi + ylo) * 0.5 + he
        norm_num
        linarith
      · show (zhi + zlo) * 0.5 - he ≤ a.2.2.2
        norm_num
        linarith
      · show a.2.2.2 ≤ (zhi + zlo) * 0.5 + he
        norm_num
        linarith

/-- Witness for C6: a single atom at the origin gives center (0, 0, 0) and
half extent 0. -/
theorem view_frame_bbox_witness :
    viewFrame oneAtom = some (((0 : ℝ), (0 : ℝ), (0 : ℝ)), (0 : ℝ)) ∧
    (∃ xlo xhi ylo yhi zlo zhi : ℝ,
      (∀ a ∈ oneAtom.atoms, xlo ≤ a.2.1 ∧ a.2.1 ≤ xhi ∧ ylo ≤ a.2.2.1 ∧
        a.2.2.1 ≤ yhi ∧ zlo ≤ a.2.2.2 ∧ a.2.2.2 ≤ zhi) ∧
      ((∃ a ∈ oneAtom.atoms, a.2.1 = xlo) ∧
       (∃ a ∈ oneAtom.atoms, a.2.1 = xhi) ∧
       (∃ a ∈ oneAtom.atoms, a.2.2.1 = ylo) ∧
       (∃ a ∈ oneAtom.atoms, a.2.2.1 = yhi) ∧
       (∃ a ∈ oneAtom.atoms, a.2.2.2 = zlo) ∧
       (∃ a ∈ oneAtom.atoms, a.2.2.2 = zhi)) ∧
      (((0 : ℝ), (0 : ℝ), (0 : ℝ)) : Vec3)
        = ((xhi + xlo) * 0.5, (yhi + ylo) * 0.5, (zhi + zlo) * 0.5) ∧
      (0 : ℝ) = max (max (xhi - xlo) (yhi - ylo)) (zhi - zlo) / 2 ∧
      (xhi - xlo = 2 * (0 : ℝ) ∨ yhi - ylo = 2 * (0 : ℝ) ∨
        zhi - zlo = 2 * (0 : ℝ)) ∧
      (∀ a ∈ oneAtom.atoms,
        ((((0 : ℝ), (0 : ℝ), (0 : ℝ)) : Vec3)).1 - 0 ≤ a.2.1 ∧
        a.2.1 ≤ ((((0 : ℝ), (0 : ℝ), (0 : ℝ)) : Vec3)).1 + 0 ∧
        ((((0 : ℝ), (0 : ℝ), (0 : ℝ)) : Vec3)).2.1 - 0 ≤ a.2.2.1 ∧
        a.2.2.1 ≤ ((((0 : ℝ), (0 : ℝ), (0 : ℝ)) : Vec3)).2.1 + 0 ∧
        ((((0 : ℝ), (0 : ℝ), (0 : ℝ)) : Vec3)).2.2 - 0 ≤ a.2.2.2 ∧
        a.2.2.2 ≤ ((((0 : ℝ), (0 : ℝ), (0 : ℝ)) : Vec3)).2.2 + 0)) := by
  have hvf : viewFrame oneAtom
      = some (((0 : ℝ), (0 : ℝ), (0 : ℝ)), (0 : ℝ)) := by
    simp only [viewFrame, oneAtom, List.map_nil, List.foldl_nil,
      Option.some.injEq, Prod.mk.injEq]
    norm_num
  exact ⟨hvf, view_frame_bbox oneAtom _ _ hvf⟩

/-! ### Cell edges (C7) -/

/-- C7: the cell-edge list always has exactly 12 segments; writing each
segment's endpoints as corners of the parallelepiped indexed by Boolean
coefficient triples, the listed segments are exactly the 12 edges of the
box (a pair of corners occurs — in either orientation — exactly once when
the corners differ in exactly one coefficient and never otherwise, so
there are no duplicates, no omissions, no self-segments and no diagonals),
and every one of the 8 corners is an endpoint of exactly 3 segments. -/
theorem cell_edges_parallelepiped (cv : Vec3 × Vec3 × Vec3) :
    (cellEdges cv).length = 12 ∧
    cellEdges cv = boxEdgeSpec.map (fun e => (corner cv e.1, corner cv e.2)) ∧
    (∀ u v : Bool × Bool × Bool,
      boxEdgeSpec.countP (fun e => decide (e = (u, v) ∨ e = (v, u)))
        = if diffCount u v = 1 then 1 else 0) ∧
    (∀ v : Bool × Bool × Bool,
      boxEdgeSpec.countP (fun e => decide (e.1 = v ∨ e.2 = v)) = 3) := by
  refine ⟨rfl, ?_, by decide, by decide⟩
  simp only [cellEdges, boxEdgeSpec, corner, vadd, List.map_cons, List.map_nil,
    if_true, if_false, Bool.false_eq_true, List.cons.injEq, Prod.mk.injEq,
    and_true, List.map]
  and_intros <;> ring_nf

/-! ### Concrete structures (C8, C9, C10) -/

/-- C8: the B2 construction gives a cubic cell of parameter 3.015 with
orthogonal axis-aligned vectors and two atoms at Cartesian (0, 0, 0) and
(a/2, a/2, a/2) (fractional (½, ½, ½)); repeating it (2, 2, 2) yields
exactly 16 atoms, 8 tagged Ti and 8 tagged Ni. -/
theorem b2_cell_spec :
    b2UnitCell.cell = (((3.015 : ℝ), 0, 0), ((0 : ℝ), 3.015, 0),
      ((0 : ℝ), 0, 3.015)) ∧
    b2UnitCell.atoms = [("Ti", ((0 : ℝ), (0 : ℝ), (0 : ℝ))),
      ("Ni", ((3.015 : ℝ) / 2, (3.015 : ℝ) / 2, (3.015 : ℝ) / 2))] ∧
    (repeatAtoms b2UnitCell 2 2 2).atoms.length = 16 ∧
    ((repeatAtoms b2UnitCell 2 2 2).atoms.countP fun a => a.1 == "Ti") = 8 ∧
    ((repeatAtoms b2UnitCell 2 2 2).atoms.countP fun a => a.1 == "Ni") = 8 :=
  ⟨rfl, rfl, rfl, rfl, rfl⟩

/-- C9: the monoclinic B19' construction yields lattice vectors (a, 0, 0),
(0, b, 0) and (c·cos β, 0, c·sin β) for a=2.89, b=4.12, c=4.62, β=96.8°,
and a 4-atom cell whose (2, 2, 2) replication has exactly 32 atoms. -/
theorem b19_cell_spec :
    b19UnitCell.cell.1 = ((2.89 : ℝ), 0, 0) ∧
    b19UnitCell.cell.2.1 = ((0 : ℝ), 4.12, 0) ∧
    b19UnitCell.cell.2.2 = ((4.62 : ℝ) * Real.cos (96.8 * Real.pi / 180), 0,
      (4.62 : ℝ) * Real.sin (96.8 * Real.pi / 180)) ∧
    b19UnitCell.atoms.length = 4 ∧
    (repeatAtoms b19UnitCell 2 2 2).atoms.length = 32 :=
  ⟨rfl, rfl, rfl, rfl, rfl⟩

/-- C10: with the shared parameters (B2 repeated (2, 2, 4), B19' repeated
(2, 2, 2)) both builder functions return exactly 32 atoms, 16 tagged Ti
and 16 tagged Ni each. -/
theorem shared_params_counts :
    create_b2_austenite.atoms.length = 32 ∧
    (create_b2_austenite.atoms.countP fun a => a.1 == "Ti") = 16 ∧
    (create_b2_austenite.atoms.countP fun a => a.1 == "Ni") = 16 ∧
    create_b19_martensite.atoms.length = 32 ∧
    (create_b19_martensite.atoms.countP fun a => a.1 == "Ti") = 16 ∧
    (create_b19_martensite.atoms.countP fun a => a.1 == "Ni") = 16 :=
  ⟨rfl, rfl, rfl, rfl, rfl, rfl⟩

/-! ### Error handling (C4, C5) -/

/-- Empty structure used by the error-handling theorems. -/
def emptyAtoms : Atoms where
  atoms := []
  cell := (((0 : ℝ), 0, 0), ((0 : ℝ), 0, 0), ((0 : ℝ), 0, 0))

lemma wire_diameter_one_empty : (create_nitinol_wire 20 1).atoms = [] := by
  have hfloor : pyInt ((1 : ℝ) / 3.015) = 0 := by
    unfold pyInt
    rw [if_pos (by norm_num)]
    rw [Int.floor_eq_zero_iff]
    exact Set.mem_Ico.mpr ⟨by norm_num, by norm_num⟩
  simp only [create_nitinol_wire]
  rw [hfloor]
  rfl

/-- Counterexample to C4: calling the wire builder with diameter 1 Å makes
`int(diameter/a)` zero, i.e. repeat counts (0, 0, nz) that are below 1 and
hence invalid by the claim; the call nevertheless returns an ordinary
(empty) AtomSet — the model is a total function and no invalid-parameter
error is raised anywhere. -/
theorem wire_invalid_params_silent : (create_nitinol_wire 20 1).atoms = [] :=
  wire_diameter_one_empty

/-- C4 (amended): no parameter validation exists in the code. The builders
and filters are total functions: a diameter smaller than one lattice
constant produces repeat count 0 and silently yields an empty AtomSet
instead of raising an invalid-parameter error, and a negative carve radius
silently filters out every atom instead of being rejected. -/
theorem no_parameter_validation :
    (∀ (s : Atoms) (cx cy R : ℝ), R < 0 → (cylFilter s cx cy R).atoms = []) ∧
    (create_nitinol_wire 20 1).atoms = [] := by
  constructor
  · intro s cx cy R hR
    unfold cylFilter
    rw [List.filter_eq_nil_iff]
    intro a _
    simp only [decide_eq_true_eq]
    intro hle
    have h0 := Real.sqrt_nonneg ((a.2.1 - cx) ^ 2 + (a.2.2.1 - cy) ^ 2)
    linarith
  · exact wire_diameter_one_empty

/-- Witness for the amended C4 at radius −1. -/
theorem no_parameter_validation_witness :
    ((-1 : ℝ) < 0 ∧ (cylFilter oneAtom 0 0 (-1)).atoms = []) ∧
    (create_nitinol_wire 20 1).atoms = [] :=
  ⟨⟨by norm_num, no_parameter_validation.1 oneAtom 0 0 (-1) (by norm_num)⟩,
   no_parameter_validation.2⟩

/-- Counterexample to C5: the bond computation on an AtomSet with zero
atoms silently produces the empty edge list (at the shared threshold 3.2)
instead of raising an invalid-input error. -/
theorem bond_graph_empty_silent : bondGraph [] 3.2 = [] := rfl

/-- C5 (amended): an empty AtomSet reaching the view-framing step is
reported as an error (numpy raises on the empty max/min reduction,
modelled as `none`), but an empty AtomSet reaching the bond computation
silently yields an empty edge list rather than an error. -/
theorem empty_atoms_behavior :
    (∀ s : Atoms, s.atoms = [] → viewFrame s = none) ∧
    (∀ t : ℝ, bondGraph [] t = []) := by
  constructor
  · intro s hs
    obtain ⟨atoms, cell⟩ := s
    dsimp only at hs
    subst hs
    rfl
  · intro t
    rfl

/-- Witness for the amended C5 on the concrete empty structure. -/
theorem empty_atoms_behavior_witness :
    (emptyAtoms.atoms = ([] : List (String × Vec3)) ∧
      viewFrame emptyAtoms = none) ∧
    bondGraph [] (3.2 : ℝ) = [] :=
  ⟨⟨rfl, empty_atoms_behavior.1 emptyAtoms rfl⟩, empty_atoms_behavior.2 3.2⟩

end Nitinol
